import Mathlib

/-!
Verification of the chunked JSON reader/writer and the structure
accumulators of the large-json-reader-writor repository.

The JavaScript sources are shallowly embedded: documents are lists of
characters, the scanning loops become structurally recursive functions
(a fuel argument stands in for loop bounds where the JS loop index is
not the structural decreasing measure), and the platform services the
code calls (JSON.parse, JSON.stringify) are modelled by executable
definitions written to the JSON grammar.
-/

/-- Opening structural characters recognised by the bracket scanners in
generate-markdown-reports.js: the opening brace (written here with its
hex escape) and the opening square bracket. -/
def isOpenBracket (c : Char) : Bool :=
  c == '\x7b' || c == '['

/-- Closing structural characters: the closing brace and the closing
square bracket. -/
def isCloseBracket (c : Char) : Bool :=
  c == '\x7d' || c == ']'

/-- JavaScript String.slice for non-negative indices: the characters
from index a (inclusive) to index b (exclusive), clipped to the
string. -/
def jsSlice (s : List Char) (a b : Nat) : List Char :=
  (s.take b).drop a

/-- JavaScript Math.round of the non-negative rational num/den:
round-half-up, computed exactly. The JS code evaluates the quotient in
floating point; the model uses the exact rational value. -/
def mathRound (num den : Nat) : Nat :=
  (2 * num + den) / (2 * den)

/-- Backward scan of findPreviousBracket (generate-markdown-reports.js):
walk i from position down to 0; an opening bracket at depth 0 is the
result, an opening bracket at positive depth decrements the depth, a
closing bracket increments it.  Characters beyond the end of the
content (JS undefined) match no branch.  The none result models the -1
sentinel. -/
def findPrevLoop (content : List Char) : Nat → Int → Option Nat
  | 0, depth =>
    match content[0]? with
    | some c =>
      if isOpenBracket c then
        if depth == 0 then some 0 else none
      else none
    | none => none
  | i+1, depth =>
    match content[i+1]? with
    | some c =>
      if isOpenBracket c then
        if depth == 0 then some (i+1) else findPrevLoop content i (depth - 1)
      else if isCloseBracket c then findPrevLoop content i (depth + 1)
      else findPrevLoop content i depth
    | none => findPrevLoop content i depth

/-- findPreviousBracket(content, position) of
generate-markdown-reports.js. -/
def findPreviousBracket (content : List Char) (position : Nat) : Option Nat :=
  findPrevLoop content position 0

/-- Forward scan of findNextBracket: walk i upward from position;
opening brackets increment the depth, a closing bracket decrements it
and, when the depth reaches 0, the scan returns i+1.  The fuel
argument bounds the loop; content.length + 1 steps always reach the
end of the content, so the wrapper below is exact. -/
def findNextLoop (content : List Char) : Nat → Nat → Int → Option Nat
  | 0, _, _ => none
  | fuel+1, i, depth =>
    match content[i]? with
    | none => none
    | some c =>
      if isOpenBracket c then findNextLoop content fuel (i+1) (depth + 1)
      else if isCloseBracket c then
        if depth - 1 == 0 then some (i+1)
        else findNextLoop content fuel (i+1) (depth - 1)
      else findNextLoop content fuel (i+1) depth

/-- findNextBracket(content, position) of
generate-markdown-reports.js. -/
def findNextBracket (content : List Char) (position : Nat) : Option Nat :=
  findNextLoop content (content.length + 1) position 0

/-- One step of the string-literal tracker used elsewhere in the
repository (interactive-browser.js, streaming-json-parser.js): the
state is (inString, escapeNext); an escaped character is consumed, a
backslash inside a string arms the escape, an unescaped quote toggles
the string state. -/
def scanChar : Bool × Bool → Char → Bool × Bool
  | (inS, true), _ => (inS, false)
  | (inS, false), c =>
    if c == '\\' && inS then (inS, true)
    else if c == '"' then (!inS, false)
    else (inS, false)

/-- String-literal state immediately before index n of the content:
the fold of scanChar over the first n characters. -/
def stringState (content : List Char) (n : Nat) : Bool × Bool :=
  (content.take n).foldl scanChar (false, false)

example : findNextBracket ['[', '"', ']', '"', ']'] 0 = some 3 := by decide
example : (stringState ['[', '"', ']', '"', ']'] 3).1 = true := by decide
example : findPreviousBracket ['[', '"', '[', '"', ']'] 2 = some 2 := by decide

/-- JSON values as produced by the platform parser.  Numeric literals
are modelled as integers; fraction and exponent forms are outside the
model (none of the repository's boundary-scanning behaviour depends on
them). -/
inductive JValue where
  | null : JValue
  | bool : Bool → JValue
  | num : Int → JValue
  | str : List Char → JValue
  | arr : List JValue → JValue
  | obj : List (List Char × JValue) → JValue
deriving Repr

/-- JSON insignificant whitespace. -/
def isJsonWs (c : Char) : Bool :=
  c == ' ' || c.toNat == 9 || c.toNat == 10 || c.toNat == 13

def skipWs : List Char → List Char
  | [] => []
  | c :: rest => if isJsonWs c then skipWs rest else c :: rest

def isJsonDigit (c : Char) : Bool :=
  48 ≤ c.toNat && c.toNat ≤ 57

/-- Numeric value of a decimal digit character (code 48 is zero). -/
def digitVal (c : Char) : Nat :=
  c.toNat - 48

/-- Consume a run of decimal digits, accumulating their value. -/
def takeDigits (acc : Nat) : List Char → Nat × List Char
  | [] => (acc, [])
  | c :: rest =>
    if isJsonDigit c then takeDigits (10 * acc + digitVal c) rest
    else (acc, c :: rest)

/-- Unsigned integer literal of the JSON grammar: 0, or a nonzero
digit followed by digits (no leading zeros). -/
def parseNatLit : List Char → Option (Nat × List Char)
  | '0' :: c :: rest => if isJsonDigit c then none else some (0, c :: rest)
  | ['0'] => some (0, [])
  | c :: rest =>
    if isJsonDigit c && c != '0' then some (takeDigits (digitVal c) rest)
    else none
  | [] => none

/-- Value of one hexadecimal digit, written over character codes: the
letter ranges a..f (codes 97..102) and A..F (codes 65..70) map to
10..15. -/
def hexVal (c : Char) : Option Nat :=
  if isJsonDigit c then some (digitVal c)
  else
    match c.toNat with
    | n =>
      if 97 ≤ n && n ≤ 102 then some (n - 87)
      else if 65 ≤ n && n ≤ 70 then some (n - 55)
      else none

/-- Decodings of the single-character JSON string escapes, as
escape-letter / decoded-character pairs. -/
def escapePairs : List (Char × Char) :=
  [('"', '"'), ('\\', '\\'), ('/', '/'), ('b', '\x08'), ('f', '\x0c'),
   ('n', '\n'), ('r', '\r'), ('t', '\t')]

def simpleEscape (e : Char) : Option Char :=
  (escapePairs.find? (fun p => p.1 == e)).map (fun p => p.2)

/-- Body of a JSON string literal, after the opening quote: decoded
characters plus the remainder after the closing quote.  Raw control
characters are rejected, escape sequences are decoded. -/
def parseStringBody : List Char → Option (List Char × List Char)
  | [] => none
  | '"' :: rest => some ([], rest)
  | '\\' :: 'u' :: h1 :: h2 :: h3 :: h4 :: rest =>
    match hexVal h1, hexVal h2, hexVal h3, hexVal h4 with
    | some a, some b, some c, some d =>
      (parseStringBody rest).map
        (fun p => (Char.ofNat (((a * 16 + b) * 16 + c) * 16 + d) :: p.1, p.2))
    | _, _, _, _ => none
  | '\\' :: e :: rest =>
    match simpleEscape e with
    | some c => (parseStringBody rest).map (fun p => (c :: p.1, p.2))
    | none => none
  | c :: rest =>
    if c.toNat < 32 then none
    else (parseStringBody rest).map (fun p => (c :: p.1, p.2))

mutual

/-- Model of the platform JSON.parse used by validateJSONSnippet and
formatJSONChunk: one JSON value plus the unconsumed remainder.  The
fuel argument bounds nesting depth; the wrapper jsonParse supplies
more fuel than any input of its length can consume. -/
def parseValue (fuel : Nat) (s : List Char) : Option (JValue × List Char) :=
  match fuel with
  | 0 => none
  | fuel + 1 =>
    match skipWs s with
    | 'n' :: 'u' :: 'l' :: 'l' :: rest => some (.null, rest)
    | 't' :: 'r' :: 'u' :: 'e' :: rest => some (.bool true, rest)
    | 'f' :: 'a' :: 'l' :: 's' :: 'e' :: rest => some (.bool false, rest)
    | '"' :: rest => (parseStringBody rest).map (fun p => (.str p.1, p.2))
    | '-' :: rest => (parseNatLit rest).map (fun p => (.num (-(p.1 : Int)), p.2))
    | '[' :: rest =>
      match skipWs rest with
      | ']' :: rest2 => some (.arr [], rest2)
      | rest2 => (parseItems fuel rest2).map (fun p => (.arr p.1, p.2))
    | '\x7b' :: rest =>
      match skipWs rest with
      | '\x7d' :: rest2 => some (.obj [], rest2)
      | rest2 => (parseFields fuel rest2).map (fun p => (.obj p.1, p.2))
    | c :: rest =>
      if isJsonDigit c then (parseNatLit (c :: rest)).map (fun p => (.num (p.1 : Int), p.2))
      else none
    | [] => none

/-- Comma-separated array items up to the closing bracket. -/
def parseItems (fuel : Nat) (s : List Char) : Option (List JValue × List Char) :=
  match fuel with
  | 0 => none
  | fuel + 1 =>
    match parseValue fuel s with
    | none => none
    | some (v, rest) =>
      match skipWs rest with
      | ',' :: rest2 => (parseItems fuel rest2).map (fun p => (v :: p.1, p.2))
      | ']' :: rest2 => some ([v], rest2)
      | _ => none

/-- Comma-separated object members up to the closing brace. -/
def parseFields (fuel : Nat) (s : List Char) :
    Option (List (List Char × JValue) × List Char) :=
  match fuel with
  | 0 => none
  | fuel + 1 =>
    match skipWs s with
    | '"' :: rest =>
      match parseStringBody rest with
      | none => none
      | some (k, rest2) =>
        match skipWs rest2 with
        | ':' :: rest3 =>
          match parseValue fuel rest3 with
          | none => none
          | some (v, rest4) =>
            match skipWs rest4 with
            | ',' :: rest5 => (parseFields fuel rest5).map (fun p => ((k, v) :: p.1, p.2))
            | '\x7d' :: rest5 => some ([(k, v)], rest5)
            | _ => none
        | _ => none
    | _ => none

end

/-- Model of JSON.parse on a whole text: the value, provided nothing
but whitespace follows it. -/
def jsonParse (s : List Char) : Option JValue :=
  match parseValue (2 * s.length + 2) s with
  | some (v, rest) => if skipWs rest == [] then some v else none
  | none => none

/-- validateJSONSnippet of generate-markdown-reports.js: JSON.parse in
a try block, true exactly when the parse succeeds. -/
def validateJSONSnippet (snippet : List Char) : Bool :=
  (jsonParse snippet).isSome

def hexDigit (n : Nat) : Char :=
  if n < 10 then Char.ofNat ('0'.toNat + n) else Char.ofNat ('a'.toNat + n - 10)

/-- JSON.stringify escaping of one string character. -/
def escapeChar (c : Char) : List Char :=
  if c == '"' then ['\\', '"']
  else if c == '\\' then ['\\', '\\']
  else if c == '\x08' then ['\\', 'b']
  else if c == '\x0c' then ['\\', 'f']
  else if c == '\n' then ['\\', 'n']
  else if c == '\r' then ['\\', 'r']
  else if c == '\t' then ['\\', 't']
  else if c.toNat < 32 then
    '\\' :: 'u' :: '0' :: '0' :: hexDigit (c.toNat / 16) :: [hexDigit (c.toNat % 16)]
  else [c]

def quoteString (s : List Char) : List Char :=
  '"' :: (s.map escapeChar).flatten ++ ['"']

def numLit (n : Int) : List Char :=
  (toString n).toList

def commaJoin : List (List Char) → List Char
  | [] => []
  | [x] => x
  | x :: xs => x ++ ',' :: commaJoin xs

/-- Recursion budget for the stringifier model; the platform
serializer overflows its call stack long before this nesting depth. -/
def stackFuel : Nat := 1000000

/-- Model of compact JSON.stringify(data). -/
def stringifyF (fuel : Nat) (v : JValue) : List Char :=
  match fuel, v with
  | _, .null => "null".toList
  | _, .bool true => "true".toList
  | _, .bool false => "false".toList
  | _, .num n => numLit n
  | _, .str s => quoteString s
  | fuel + 1, .arr xs => '[' :: commaJoin (xs.map (stringifyF fuel)) ++ [']']
  | fuel + 1, .obj fs =>
    '\x7b' :: commaJoin (fs.map (fun kv => quoteString kv.1 ++ ':' :: stringifyF fuel kv.2))
      ++ ['\x7d']
  | 0, _ => []

def jsonStringify (v : JValue) : List Char :=
  stringifyF stackFuel v

def indentChars (level : Nat) : List Char :=
  List.replicate (2 * level) ' '

def commaNewlineJoin : List (List Char) → List Char
  | [] => []
  | [x] => x
  | x :: xs => x ++ ',' :: '\n' :: commaNewlineJoin xs

/-- Model of pretty JSON.stringify(data, null, 2) at a given
indentation level. -/
def stringifyPrettyF (fuel : Nat) (level : Nat) (v : JValue) : List Char :=
  match fuel, v with
  | _, .null => "null".toList
  | _, .bool true => "true".toList
  | _, .bool false => "false".toList
  | _, .num n => numLit n
  | _, .str s => quoteString s
  | _, .arr [] => "[]".toList
  | _, .obj [] => ['\x7b', '\x7d']
  | fuel + 1, .arr xs =>
    '[' :: '\n' ::
      commaNewlineJoin (xs.map (fun x => indentChars (level + 1) ++ stringifyPrettyF fuel (level + 1) x))
      ++ '\n' :: (indentChars level ++ [']'])
  | fuel + 1, .obj fs =>
    '\x7b' :: '\n' ::
      commaNewlineJoin (fs.map (fun kv =>
        indentChars (level + 1) ++ quoteString kv.1 ++ ':' :: ' ' :: stringifyPrettyF fuel (level + 1) kv.2))
      ++ '\n' :: (indentChars level ++ ['\x7d'])
  | 0, _ => []

def jsonStringifyPretty (v : JValue) : List Char :=
  stringifyPrettyF stackFuel 0 v

/-- formatJSONChunk of generate-markdown-reports.js: reparse and
pretty-print; on parse failure return the chunk unchanged. -/
def formatJSONChunk (chunk : List Char) : List Char :=
  match jsonParse chunk with
  | some v => jsonStringifyPretty v
  | none => chunk

example : jsonParse ['[', '1', ',', '2', ']'] = some (.arr [.num 1, .num 2]) := rfl
example : validateJSONSnippet ['[', '"', 'a', '[', '"', ',', '2', ']'] = true := by decide
example : validateJSONSnippet ['[', '1', ',', '[', '2', ']'] = false := by decide
example : jsonStringify (.arr [.str ['a', '['], .num 2]) = ['[', '"', 'a', '[', '"', ',', '2', ']'] := rfl

/-- One record yielded by readJSONInChunks: the chunk text, the
position field of the yield, and the progress percentage. -/
structure ChunkRecord where
  chunk : List Char
  position : Nat
  progress : Nat
deriving Repr, DecidableEq

/-- One iteration of the while-loop of readJSONInChunks
(generate-markdown-reports.js): the yielded record and the new value
of position.  The local variable chunk starts as the raw window; when
both scanners return offsets it is overwritten with the widened slice
before validation, so the fallback yield after a failed validation
emits the widened slice rather than the raw window. -/
def readStep (content : List Char) (chunkSize : Nat) (pretty : Bool) (position : Nat) :
    ChunkRecord × Nat :=
  match findPreviousBracket content position,
      findNextBracket content (min (position + chunkSize) content.length) with
  | some startIndex, some endIndex =>
    if validateJSONSnippet (jsSlice content startIndex endIndex) then
      (⟨if pretty then formatJSONChunk (jsSlice content startIndex endIndex)
          else jsSlice content startIndex endIndex,
        startIndex, mathRound (100 * endIndex) content.length⟩, endIndex)
    else
      (⟨jsSlice content startIndex endIndex, position + chunkSize,
        mathRound (100 * (position + chunkSize)) content.length⟩, position + chunkSize)
  | _, _ =>
    (⟨jsSlice content position (min (position + chunkSize) content.length),
      position + chunkSize,
      mathRound (100 * (position + chunkSize)) content.length⟩, position + chunkSize)

/-- The while-loop of readJSONInChunks, driven by fuel: some records
when the loop reaches position >= totalLength within the given number
of iterations, none when the fuel is exhausted first (which models
divergence, e.g. for chunkSize = 0). -/
def readLoopF (content : List Char) (chunkSize : Nat) (pretty : Bool) :
    Nat → Nat → Option (List ChunkRecord)
  | 0, position => if position < content.length then none else some []
  | fuel + 1, position =>
    if position < content.length then
      let s := readStep content chunkSize pretty position
      (readLoopF content chunkSize pretty fuel s.2).map (s.1 :: ·)
    else some []

/-- readJSONInChunks as the sequence of yielded records.  The fuel
content.length + 1 is sufficient whenever chunkSize > 0 (proved
below), so the default branch is never taken for the inputs the claims
quantify over. -/
def readJSONInChunks (content : List Char) (chunkSize : Nat) (pretty : Bool) :
    List ChunkRecord :=
  (readLoopF content chunkSize pretty (content.length + 1) 0).getD []

/-- Observable actions of writeJSONInChunks: a chunk written to the
file handle, or the progress percentage logged after a write.  The
callbackInvocation action is the shape a progress callback call would
have; the source destructures only append, chunkSize and pretty from
its options and never invokes a callback, so the embedding below never
emits it. -/
inductive WriteEvent where
  | write : List Char → WriteEvent
  | logProgress : Nat → WriteEvent
  | callbackInvocation : Nat → Nat → WriteEvent
deriving Repr, DecidableEq

def WriteEvent.isWrite : WriteEvent → Bool
  | .write _ => true
  | _ => false

def WriteEvent.isCallbackInvocation : WriteEvent → Bool
  | .callbackInvocation _ _ => true
  | _ => false

/-- The while-loop of writeJSONInChunks: slice the serialized string
into windows of chunkSize characters, write each, then log the
progress percentage.  Fuel as for the reader. -/
def writeLoopF (jsonString : List Char) (chunkSize : Nat) :
    Nat → Nat → Option (List WriteEvent)
  | 0, position => if position < jsonString.length then none else some []
  | fuel + 1, position =>
    if position < jsonString.length then
      let endPosition := min (position + chunkSize) jsonString.length
      let chunk := jsSlice jsonString position endPosition
      (writeLoopF jsonString chunkSize fuel endPosition).map
        (fun rest => .write chunk :: .logProgress (mathRound (100 * endPosition) jsonString.length) :: rest)
    else some []

/-- Serialized text written by writeJSONInChunks for the given data
and pretty option. -/
def writerString (data : JValue) (pretty : Bool) : List Char :=
  if pretty then jsonStringifyPretty data else jsonStringify data

/-- writeJSONInChunks as its sequence of observable actions.  The
append flag only selects the open mode of the file handle and does not
affect the written slices. -/
def writeJSONInChunks (data : JValue) (append : Bool) (chunkSize : Nat) (pretty : Bool) :
    List WriteEvent :=
  let jsonString := writerString data pretty
  (writeLoopF jsonString chunkSize (jsonString.length + 1) 0).getD []

/-- Chunks carried by the write actions of a trace, in order. -/
def writtenChunks (events : List WriteEvent) : List (List Char) :=
  events.filterMap (fun e => match e with | .write c => some c | _ => none)

example :
    readJSONInChunks ['a', 'b', 'c'] 5 false = [⟨['a', 'b', 'c'], 5, 167⟩] := rfl
example :
    (readJSONInChunks
      ['[', '"', ']', '"', ',', '[', '"', 'a', '[', '"', ',', '2', ']', ']'] 2 false).map
      (fun r => (r.position, r.progress)) =
      [(2, 14), (4, 29), (6, 43), (5, 93), (15, 107)] := rfl

/-- The six per-type counters of this.stats in JSONAnalyzer
(json-analyzer.js).  The constructor initializes further fields
(totalSize, key/path maps, maxDepth, timing) that the recursive walker
analyzeStructure never touches; the embedding keeps exactly the fields
it reads or writes. -/
structure AnalyzerStats where
  objects : Nat
  arrays : Nat
  strings : Nat
  numbers : Nat
  booleans : Nat
  nulls : Nat
deriving Repr, DecidableEq

/-- The counter values installed by the JSONAnalyzer constructor. -/
def initialAnalyzerStats : AnalyzerStats :=
  ⟨0, 0, 0, 0, 0, 0⟩

/-- analyzeStructure of json-analyzer.js: classify the value,
increment the matching counter of the shared stats object, and recurse
into array elements and object properties with extended paths.  The
fuel argument models the engine's call stack; every call increments
its counter before recursing, so exhausted fuel still counts the
composite value. -/
def analyzeStructureF (fuel : Nat) (stats : AnalyzerStats) (obj : JValue)
    (path : List Char) : AnalyzerStats :=
  match fuel, obj with
  | _, .null => { stats with nulls := stats.nulls + 1 }
  | _, .str _ => { stats with strings := stats.strings + 1 }
  | _, .num _ => { stats with numbers := stats.numbers + 1 }
  | _, .bool _ => { stats with booleans := stats.booleans + 1 }
  | fuel + 1, .arr items =>
    (items.enum).foldl
      (fun st p =>
        analyzeStructureF fuel st p.2 (path ++ '[' :: (toString p.1).toList ++ [']']))
      { stats with arrays := stats.arrays + 1 }
  | fuel + 1, .obj fields =>
    fields.foldl
      (fun st kv => analyzeStructureF fuel st kv.2 (path ++ '.' :: kv.1))
      { stats with objects := stats.objects + 1 }
  | 0, .arr _ => { stats with arrays := stats.arrays + 1 }
  | 0, .obj _ => { stats with objects := stats.objects + 1 }

/-- analyzeStructure as called on an analyzer instance: the shared
this.stats value threads through and is returned updated. -/
def analyzeStructure (stats : AnalyzerStats) (obj : JValue) (path : List Char := []) :
    AnalyzerStats :=
  analyzeStructureF stackFuel stats obj path

/-- Sum of the six per-type counters. -/
def AnalyzerStats.total (s : AnalyzerStats) : Nat :=
  s.objects + s.arrays + s.strings + s.numbers + s.booleans + s.nulls

/-- The counters of this.results in StreamingJSONParser
(streaming-json-parser.js); the typeCounts record is flattened into
the six counter fields.  The structure-map bookkeeping (per-path type,
count and samples) reads and writes no counter and is not embedded. -/
structure ParserResults where
  maxDepth : Nat
  totalElements : Nat
  objects : Nat
  arrays : Nat
  strings : Nat
  numbers : Nat
  booleans : Nat
  nulls : Nat
deriving Repr, DecidableEq

/-- The counter values installed by the StreamingJSONParser
constructor. -/
def initialParserResults : ParserResults :=
  ⟨0, 0, 0, 0, 0, 0, 0, 0⟩

/-- The opening maxDepth update of analyzeValue: raise maxDepth to the
current depth when it is larger. -/
def bumpMaxDepth (results : ParserResults) (depth : Nat) : ParserResults :=
  if depth > results.maxDepth then { results with maxDepth := depth } else results

/-- analyzeValue of streaming-json-parser.js: raise maxDepth to the
current depth, classify the value, increment its type counter and
totalElements, and, for arrays and objects, recurse into children
with depth + 1 only while depth < 5. -/
def analyzeValueF (fuel : Nat) (results : ParserResults) (key : List Char) (v : JValue)
    (depth : Nat) : ParserResults :=
  let results := bumpMaxDepth results depth
  match fuel, v with
  | _, .null =>
    { results with nulls := results.nulls + 1, totalElements := results.totalElements + 1 }
  | _, .str _ =>
    { results with strings := results.strings + 1, totalElements := results.totalElements + 1 }
  | _, .num _ =>
    { results with numbers := results.numbers + 1, totalElements := results.totalElements + 1 }
  | _, .bool _ =>
    { results with booleans := results.booleans + 1, totalElements := results.totalElements + 1 }
  | fuel + 1, .arr items =>
    let results :=
      { results with arrays := results.arrays + 1, totalElements := results.totalElements + 1 }
    if depth < 5 then
      (items.enum).foldl
        (fun r p =>
          analyzeValueF fuel r (key ++ '[' :: (toString p.1).toList ++ [']']) p.2 (depth + 1))
        results
    else results
  | fuel + 1, .obj fields =>
    let results :=
      { results with objects := results.objects + 1, totalElements := results.totalElements + 1 }
    if depth < 5 then
      fields.foldl
        (fun r kv => analyzeValueF fuel r (key ++ '.' :: kv.1) kv.2 (depth + 1))
        results
    else results
  | 0, .arr _ =>
    { results with arrays := results.arrays + 1, totalElements := results.totalElements + 1 }
  | 0, .obj _ =>
    { results with objects := results.objects + 1, totalElements := results.totalElements + 1 }

/-- analyzeValue as called on a parser instance. -/
def analyzeValue (results : ParserResults) (key : List Char) (v : JValue) (depth : Nat) :
    ParserResults :=
  analyzeValueF stackFuel results key v depth

/-- Sum of the six per-type counters of the streaming parser. -/
def ParserResults.typeTotal (r : ParserResults) : Nat :=
  r.objects + r.arrays + r.strings + r.numbers + r.booleans + r.nulls

example : (analyzeStructure (analyzeStructure initialAnalyzerStats .null) .null).nulls = 2 := rfl
example :
    (analyzeValue initialParserResults ['r'] (.arr [.num 1, .str ['x'], .null]) 0).typeTotal =
      (analyzeValue initialParserResults ['r'] (.arr [.num 1, .str ['x'], .null]) 0).totalElements := rfl

theorem findNextLoop_lt (content : List Char) :
    ∀ fuel i depth e, findNextLoop content fuel i depth = some e → i < e := by
  intro fuel
  induction fuel with
  | zero => intro i depth e h; simp [findNextLoop] at h
  | succ fuel ih =>
    intro i depth e h
    rw [findNextLoop] at h
    cases hc : content[i]? with
    | none => rw [hc] at h; cases h
    | some c =>
      rw [hc] at h
      by_cases ho : isOpenBracket c
      · simp only [ho, if_true] at h
        exact Nat.lt_of_succ_lt (ih (i+1) (depth+1) e h)
      · by_cases hcl : isCloseBracket c
        · simp only [ho, hcl, if_false, if_true] at h
          by_cases hd : depth - 1 == 0
          · simp only [hd, if_true] at h
            injection h with h'
            omega
          · simp only [hd, if_false] at h
            exact Nat.lt_of_succ_lt (ih (i+1) (depth-1) e h)
        · simp only [ho, hcl, if_false] at h
          exact Nat.lt_of_succ_lt (ih (i+1) depth e h)

theorem findNextLoop_none_of_ge (content : List Char) (fuel i : Nat) (depth : Int)
    (h : content.length ≤ i) : findNextLoop content fuel i depth = none := by
  cases fuel with
  | zero => simp [findNextLoop]
  | succ fuel =>
    rw [findNextLoop]
    rw [List.getElem?_eq_none h]

theorem findPrevLoop_isOpen (content : List Char) :
    ∀ i depth s, findPrevLoop content i depth = some s →
      ∃ c, content[s]? = some c ∧ isOpenBracket c = true ∧ s ≤ i := by
  intro i
  induction i with
  | zero =>
    intro depth s h
    rw [findPrevLoop] at h
    cases hc : content[0]? with
    | none => rw [hc] at h; cases h
    | some c =>
      rw [hc] at h
      by_cases ho : isOpenBracket c
      · simp only [ho, if_true] at h
        by_cases hd : depth == 0
        · simp only [hd, if_true] at h
          injection h with h'
          exact ⟨c, by rw [← h']; exact hc, ho, by omega⟩
        · simp only [hd, if_false] at h; cases h
      · simp only [ho, if_false] at h; cases h
  | succ i ih =>
    intro depth s h
    rw [findPrevLoop] at h
    cases hc : content[i+1]? with
    | none =>
      rw [hc] at h
      obtain ⟨c, h1, h2, h3⟩ := ih depth s h
      exact ⟨c, h1, h2, by omega⟩
    | some c =>
      rw [hc] at h
      by_cases ho : isOpenBracket c
      · simp only [ho, if_true] at h
        by_cases hd : depth == 0
        · simp only [hd, if_true] at h
          injection h with h'
          exact ⟨c, by rw [← h']; exact hc, ho, by omega⟩
        · simp only [hd, if_false] at h
          obtain ⟨c', h1, h2, h3⟩ := ih (depth - 1) s h
          exact ⟨c', h1, h2, by omega⟩
      · by_cases hcl : isCloseBracket c
        · simp only [ho, hcl, if_false, if_true] at h
          obtain ⟨c', h1, h2, h3⟩ := ih (depth + 1) s h
          exact ⟨c', h1, h2, by omega⟩
        · simp only [ho, hcl, if_false] at h
          obtain ⟨c', h1, h2, h3⟩ := ih depth s h
          exact ⟨c', h1, h2, by omega⟩

theorem findNextLoop_isClose (content : List Char) :
    ∀ fuel i depth e, findNextLoop content fuel i depth = some e →
      ∃ c, content[e-1]? = some c ∧ isCloseBracket c = true := by
  intro fuel
  induction fuel with
  | zero => intro i depth e h; simp [findNextLoop] at h
  | succ fuel ih =>
    intro i depth e h
    rw [findNextLoop] at h
    cases hc : content[i]? with
    | none => rw [hc] at h; cases h
    | some c =>
      rw [hc] at h
      by_cases ho : isOpenBracket c
      · simp only [ho, if_true] at h
        exact ih (i+1) (depth+1) e h
      · by_cases hcl : isCloseBracket c
        · simp only [ho, hcl, if_false, if_true] at h
          by_cases hd : depth - 1 == 0
          · simp only [hd, if_true] at h
            injection h with h'
            refine ⟨c, ?_, hcl⟩
            rw [← h']
            simpa using hc
          · simp only [hd, if_false] at h
            exact ih (i+1) (depth-1) e h
        · simp only [ho, hcl, if_false] at h
          exact ih (i+1) depth e h

theorem stringState_succ (content : List Char) (i : Nat) (c : Char)
    (h : content[i]? = some c) :
    stringState content (i+1) = scanChar (stringState content i) c := by
  unfold stringState
  rw [List.take_succ, h]
  simp [List.foldl_append]

/-- Claim C1, amended: the bracket scanners track no string-literal
state, so the claimed property holds exactly for inputs whose
string-literal context contains no brace or bracket characters; for
such inputs findPreviousBracket returns only offsets of opening
brackets outside string literals and findNextBracket returns only
offsets just past closing brackets outside string literals, never an
offset strictly inside a literal. -/
theorem claim1_amended (content : List Char)
    (H : ∀ i, i < content.length → (stringState content i).1 = true →
      isOpenBracket (content.getD i ' ') = false ∧ isCloseBracket (content.getD i ' ') = false) :
    (∀ position s, findPreviousBracket content position = some s →
      (stringState content s).1 = false) ∧
    (∀ position e, findNextBracket content position = some e →
      (stringState content (e-1)).1 = false ∧ (stringState content e).1 = false) := by
  constructor
  · intro position s h
    obtain ⟨c, h1, h2, _⟩ := findPrevLoop_isOpen content position 0 s h
    have hs : s < content.length := by
      by_contra hge
      rw [List.getElem?_eq_none (by omega)] at h1
      cases h1
    by_contra hin
    have hgd : content.getD s ' ' = c := by
      unfold List.getD
      rw [List.get?_eq_getElem?, h1]
      rfl
    have := (H s hs (by revert hin; cases (stringState content s).1 <;> simp)).1
    rw [hgd] at this
    rw [h2] at this
    cases this
  · intro position e h
    have hlt := findNextLoop_lt content (content.length + 1) position 0 e h
    obtain ⟨c, h1, h2⟩ := findNextLoop_isClose content (content.length + 1) position 0 e h
    have he : e - 1 < content.length := by
      by_contra hge
      rw [List.getElem?_eq_none (by omega)] at h1
      cases h1
    have hgd : content.getD (e-1) ' ' = c := by
      unfold List.getD
      rw [List.get?_eq_getElem?, h1]
      rfl
    have hout : (stringState content (e-1)).1 = false := by
      by_contra hin
      have := (H (e-1) he (by revert hin; cases (stringState content (e-1)).1 <;> simp)).2
      rw [hgd] at this
      rw [h2] at this
      cases this
    refine ⟨hout, ?_⟩
    have hsucc : e - 1 + 1 = e := by omega
    have hstep := stringState_succ content (e-1) c h1
    rw [hsucc] at hstep
    rw [hstep]
    have hcq : c = '\x7d' ∨ c = ']' := by
      have := h2
      unfold isCloseBracket at this
      rcases Bool.or_eq_true_iff.1 this with hh | hh
      · exact Or.inl (by exact beq_iff_eq.1 hh)
      · exact Or.inr (by exact beq_iff_eq.1 hh)
    cases hesc : (stringState content (e-1)).2 with
    | true =>
      have : stringState content (e-1) = (false, true) := by
        have h3 := hout
        cases hss : stringState content (e-1) with
        | mk a b =>
          rw [hss] at h3 hesc
          simp at h3 hesc
          rw [h3, hesc]
      rw [this]
      rfl
    | false =>
      have : stringState content (e-1) = (false, false) := by
        have h3 := hout
        cases hss : stringState content (e-1) with
        | mk a b =>
          rw [hss] at h3 hesc
          simp at h3 hesc
          rw [h3, hesc]
      rw [this]
      rcases hcq with hc | hc <;> rw [hc] <;> rfl

/-- Witness for claim1_amended at a two-character document consisting
of one bracket pair. -/
theorem claim1_amended_witness :
    (stringState ['[', ']'] 0).1 = false ∧ (stringState ['[', ']'] 2).1 = false := by
  have h := claim1_amended ['[', ']'] (by decide)
  exact ⟨h.1 0 0 (by decide), (h.2 0 2 (by decide)).2⟩

/-- Counterexample to claim C1 as stated: on the document consisting
of the characters of a bracket-quote text with an escaped quote and a
backslash, findNextBracket counts a closing bracket that sits inside a
string literal and returns an offset strictly inside that literal, and
findPreviousBracket likewise returns the offset of an opening bracket
that sits inside a string literal. -/
theorem claim1_counterexample :
    (findNextBracket ['[', '"', '\\', '"', ']', '"', ']'] 0 = some 5 ∧
      (stringState ['[', '"', '\\', '"', ']', '"', ']'] 4).1 = true ∧
      (stringState ['[', '"', '\\', '"', ']', '"', ']'] 5).1 = true) ∧
    (findPreviousBracket ['[', '"', '\\', '"', '[', '"', ']'] 4 = some 4 ∧
      (stringState ['[', '"', '\\', '"', '[', '"', ']'] 4).1 = true) := by
  decide

theorem readStep_newPos (content : List Char) (chunkSize : Nat) (pretty : Bool)
    (position : Nat) :
    position + chunkSize ≤ (readStep content chunkSize pretty position).2 := by
  unfold readStep
  split
  next startIndex endIndex hprev hnext =>
    split
    next hv =>
      have hlt := findNextLoop_lt content (content.length + 1)
        (min (position + chunkSize) content.length) 0 endIndex hnext
      by_cases hle : position + chunkSize ≤ content.length
      · rw [Nat.min_eq_left hle] at hlt
        omega
      · exfalso
        have hmin : min (position + chunkSize) content.length = content.length := by omega
        rw [hmin] at hnext
        have hn0 : findNextBracket content content.length = none := by
          unfold findNextBracket
          exact findNextLoop_none_of_ge content _ _ _ (Nat.le_refl _)
        rw [hn0] at hnext
        cases hnext
    next hv => exact Nat.le_refl _
  next a b hmatch => exact Nat.le_refl _

theorem readStep_progress (content : List Char) (chunkSize : Nat) (pretty : Bool)
    (position : Nat) :
    (readStep content chunkSize pretty position).1.progress =
      mathRound (100 * (readStep content chunkSize pretty position).2) content.length := by
  unfold readStep
  split
  next startIndex endIndex hprev hnext =>
    split
    next hv => rfl
    next hv => rfl
  next a b hmatch => rfl

/-- Counterexample to claim C2 as stated: on the document with the
characters of a two-level bracket text, chunkSize 3, both scanners
return offsets, validation of the widened slice fails, and the emitted
chunk is the widened slice rather than the raw fixed window, though
the position does advance by exactly chunkSize. -/
theorem claim2_counterexample :
    findPreviousBracket ['[', '1', ',', '[', '2', ']', ']'] 0 = some 0 ∧
    findNextBracket ['[', '1', ',', '[', '2', ']', ']'] 3 = some 6 ∧
    validateJSONSnippet (jsSlice ['[', '1', ',', '[', '2', ']', ']'] 0 6) = false ∧
    (readStep ['[', '1', ',', '[', '2', ']', ']'] 3 false 0).1.chunk =
      jsSlice ['[', '1', ',', '[', '2', ']', ']'] 0 6 ∧
    (readStep ['[', '1', ',', '[', '2', ']', ']'] 3 false 0).1.chunk ≠
      jsSlice ['[', '1', ',', '[', '2', ']', ']'] 0 3 ∧
    (readStep ['[', '1', ',', '[', '2', ']', ']'] 3 false 0).2 = 0 + 3 := by
  decide

/-- Claim C2, amended: per iteration, when both scanners return
offsets and the widened slice validates, the (optionally
pretty-printed) widened slice is emitted and the position advances to
its end offset; when both scanners return offsets and validation
fails, the widened slice itself is emitted (the chunk variable was
already overwritten) and the position advances by exactly chunkSize;
when either scanner returns its sentinel, the raw fixed window is
emitted and the position advances by exactly chunkSize. -/
theorem claim2_amended (content : List Char) (chunkSize : Nat) (pretty : Bool)
    (position : Nat) :
    (∀ s e, findPreviousBracket content position = some s →
      findNextBracket content (min (position + chunkSize) content.length) = some e →
      validateJSONSnippet (jsSlice content s e) = true →
        (readStep content chunkSize pretty position).1.chunk =
          (if pretty then formatJSONChunk (jsSlice content s e) else jsSlice content s e) ∧
        (readStep content chunkSize pretty position).2 = e) ∧
    (∀ s e, findPreviousBracket content position = some s →
      findNextBracket content (min (position + chunkSize) content.length) = some e →
      validateJSONSnippet (jsSlice content s e) = false →
        (readStep content chunkSize pretty position).1.chunk = jsSlice content s e ∧
        (readStep content chunkSize pretty position).2 = position + chunkSize) ∧
    ((findPreviousBracket content position = none ∨
      findNextBracket content (min (position + chunkSize) content.length) = none) →
        (readStep content chunkSize pretty position).1.chunk =
          jsSlice content position (min (position + chunkSize) content.length) ∧
        (readStep content chunkSize pretty position).2 = position + chunkSize) := by
  refine ⟨?_, ?_, ?_⟩
  · intro s e hp hn hv
    unfold readStep
    rw [hp, hn]
    simp [hv]
  · intro s e hp hn hv
    unfold readStep
    rw [hp, hn]
    simp [hv]
  · intro h
    rcases h with hp | hn
    · unfold readStep
      rw [hp]
      exact ⟨rfl, rfl⟩
    · cases hp : findPreviousBracket content position with
      | none =>
        unfold readStep
        rw [hp]
        exact ⟨rfl, rfl⟩
      | some s =>
        unfold readStep
        rw [hp, hn]
        exact ⟨rfl, rfl⟩

/-- Witness for claim2_amended: the sentinel branch at a one-character
document without brackets. -/
theorem claim2_amended_witness :
    (readStep ['a'] 1 false 0).1.chunk = jsSlice ['a'] 0 (min (0 + 1) 1) ∧
    (readStep ['a'] 1 false 0).2 = 0 + 1 :=
  (claim2_amended ['a'] 1 false 0).2.2 (Or.inl (by decide))

/-- Counterexample to claim C5 as stated: with pretty true, the
document whose characters spell an array holding a bracket string and
a nested array validates as a whole on the first iteration, and the
emitted chunk is the pretty-printed reserialization, which differs
from the source substring between the boundary offsets. -/
theorem claim5_counterexample :
    findPreviousBracket ['[', '"', '[', '"', ',', '[', '1', ']', ']'] 0 = some 0 ∧
    findNextBracket ['[', '"', '[', '"', ',', '[', '1', ']', ']'] (min (0 + 2) 9) = some 9 ∧
    validateJSONSnippet (jsSlice ['[', '"', '[', '"', ',', '[', '1', ']', ']'] 0 9) = true ∧
    ((readJSONInChunks ['[', '"', '[', '"', ',', '[', '1', ']', ']'] 2 true).map
        (fun r => r.chunk)).head? ≠
      some (jsSlice ['[', '"', '[', '"', ',', '[', '1', ']', ']'] 0 9) := by
  decide

/-- Claim C5, amended: with pretty false, every chunk emitted through
the validated branch equals the exact source substring between the
boundary offsets, that text passes the snippet validator, and the
yielded position field is the start offset. -/
theorem claim5_amended (content : List Char) (chunkSize : Nat) (position s e : Nat)
    (hp : findPreviousBracket content position = some s)
    (hn : findNextBracket content (min (position + chunkSize) content.length) = some e)
    (hv : validateJSONSnippet (jsSlice content s e) = true) :
    (readStep content chunkSize false position).1.chunk = jsSlice content s e ∧
    validateJSONSnippet ((readStep content chunkSize false position).1.chunk) = true ∧
    (readStep content chunkSize false position).1.position = s ∧
    (readStep content chunkSize false position).2 = e := by
  unfold readStep
  rw [hp, hn]
  simp [hv]

/-- Witness for claim5_amended at the nine-character array document,
chunkSize 2, position 0. -/
theorem claim5_amended_witness :
    (readStep ['[', '"', '[', '"', ',', '[', '1', ']', ']'] 2 false 0).1.chunk =
      jsSlice ['[', '"', '[', '"', ',', '[', '1', ']', ']'] 0 9 ∧
    validateJSONSnippet
      ((readStep ['[', '"', '[', '"', ',', '[', '1', ']', ']'] 2 false 0).1.chunk) = true ∧
    (readStep ['[', '"', '[', '"', ',', '[', '1', ']', ']'] 2 false 0).1.position = 0 ∧
    (readStep ['[', '"', '[', '"', ',', '[', '1', ']', ']'] 2 false 0).2 = 9 :=
  claim5_amended ['[', '"', '[', '"', ',', '[', '1', ']', ']'] 2 0 0 9
    (by decide) (by decide) (by decide)

theorem mathRound_le_100 (p t : Nat) (h : p ≤ t) (ht : 0 < t) :
    mathRound (100 * p) t ≤ 100 := by
  unfold mathRound
  have hlt : (2 * (100 * p) + t) / (2 * t) < 101 :=
    (Nat.div_lt_iff_lt_mul (by omega)).2 (by omega)
  omega

theorem le_100_mathRound (p t : Nat) (h : t ≤ p) (ht : 0 < t) :
    100 ≤ mathRound (100 * p) t := by
  unfold mathRound
  exact (Nat.le_div_iff_mul_le (by omega)).2 (by omega)

theorem readLoopF_of_ge (content : List Char) (chunkSize : Nat) (pretty : Bool)
    (fuel position : Nat) (hp : ¬ position < content.length) :
    readLoopF content chunkSize pretty fuel position = some [] := by
  cases fuel <;> simp [readLoopF, hp]

theorem readLoopF_ne_nil (content : List Char) (chunkSize : Nat) (pretty : Bool)
    (fuel position : Nat) (hp : position < content.length) :
    readLoopF content chunkSize pretty fuel position ≠ some [] := by
  cases fuel with
  | zero => simp [readLoopF, hp]
  | succ fuel =>
    rw [readLoopF]
    simp only [hp, if_true]
    cases hrec : readLoopF content chunkSize pretty fuel
        (readStep content chunkSize pretty position).2 with
    | none => simp
    | some l => simp

theorem readLoopF_isSome (content : List Char) (chunkSize : Nat) (pretty : Bool)
    (hcs : 0 < chunkSize) :
    ∀ fuel position, content.length - position < fuel →
      (readLoopF content chunkSize pretty fuel position).isSome = true := by
  intro fuel
  induction fuel with
  | zero => intro position h; omega
  | succ fuel ih =>
    intro position h
    rw [readLoopF]
    by_cases hp : position < content.length
    · simp only [hp, if_true]
      have hadv := readStep_newPos content chunkSize pretty position
      have hrec := ih (readStep content chunkSize pretty position).2 (by omega)
      cases heq : readLoopF content chunkSize pretty fuel
          (readStep content chunkSize pretty position).2 with
      | none => rw [heq] at hrec; simp at hrec
      | some l => rfl
    · simp [hp]

theorem readLoopF_length (content : List Char) (chunkSize : Nat) (pretty : Bool)
    (hcs : 0 < chunkSize) :
    ∀ fuel position l, readLoopF content chunkSize pretty fuel position = some l →
      l.length ≤ content.length - position := by
  intro fuel
  induction fuel with
  | zero =>
    intro position l h
    by_cases hp : position < content.length
    · simp [readLoopF, hp] at h
    · simp [readLoopF, hp] at h
      subst h
      simp
  | succ fuel ih =>
    intro position l h
    by_cases hp : position < content.length
    · rw [readLoopF] at h
      simp only [hp, if_true] at h
      rcases Option.map_eq_some'.1 h with ⟨l', hrec, hl⟩
      have hadv := readStep_newPos content chunkSize pretty position
      have := ih _ l' hrec
      rw [← hl]
      simp only [List.length_cons]
      omega
    · rw [readLoopF_of_ge content chunkSize pretty _ _ hp] at h
      injection h with h'
      rw [← h']
      simp

theorem readLoopF_progress (content : List Char) (chunkSize : Nat) (pretty : Bool) :
    ∀ fuel position l, position < content.length →
      readLoopF content chunkSize pretty fuel position = some l →
      (∀ r ∈ l.dropLast, r.progress ≤ 100) ∧
      (∀ r, l.getLast? = some r → 100 ≤ r.progress) := by
  intro fuel
  induction fuel with
  | zero =>
    intro position l hp h
    simp [readLoopF, hp] at h
  | succ fuel ih =>
    intro position l hp h
    rw [readLoopF] at h
    simp only [hp, if_true] at h
    rcases Option.map_eq_some'.1 h with ⟨l', hrec, hl⟩
    have hadv := readStep_newPos content chunkSize pretty position
    have hprog := readStep_progress content chunkSize pretty position
    by_cases hp2 : (readStep content chunkSize pretty position).2 < content.length
    · have hne : l' ≠ [] := by
        intro hnil
        rw [hnil] at hrec
        exact readLoopF_ne_nil content chunkSize pretty fuel _ hp2 hrec
      obtain ⟨r', l'', hl'⟩ : ∃ r' l'', l' = r' :: l'' := by
        cases l' with
        | nil => exact absurd rfl hne
        | cons a b => exact ⟨a, b, rfl⟩
      subst hl'
      obtain ⟨ihdrop, ihlast⟩ := ih _ (r' :: l'') hp2 hrec
      rw [← hl]
      constructor
      · intro r hr
        have hdl : ((readStep content chunkSize pretty position).1 :: r' :: l'').dropLast =
            (readStep content chunkSize pretty position).1 :: (r' :: l'').dropLast := rfl
        rw [hdl] at hr
        rcases List.mem_cons.1 hr with hr | hr
        · subst hr
          rw [hprog]
          exact mathRound_le_100 _ _ (by omega) (by omega)
        · exact ihdrop r hr
      · intro r hr
        rw [List.getLast?_cons_cons] at hr
        exact ihlast r hr
    · have hl' : l' = [] := by
        rw [readLoopF_of_ge content chunkSize pretty fuel _ hp2] at hrec
        injection hrec with h'
        exact h'.symm
      subst hl'
      rw [← hl]
      refine ⟨?_, ?_⟩
      · intro r hr
        simp [List.dropLast] at hr
      · intro r hr
        simp only [List.getLast?_singleton, Option.some.injEq] at hr
        rw [← hr, hprog]
        exact le_100_mathRound _ _ (by omega) (by omega)

/-- Claim C4: for any content and any chunkSize > 0, every iteration
advances the position by at least chunkSize, the loop finishes within
its iteration budget (the fuel branch modelling divergence is never
taken), and the number of yielded records is bounded by the document
length, so the generator yields only finitely many chunks. -/
theorem claim4 (content : List Char) (chunkSize : Nat) (pretty : Bool)
    (hcs : 0 < chunkSize) :
    (∀ position, position + chunkSize ≤ (readStep content chunkSize pretty position).2) ∧
    (readLoopF content chunkSize pretty (content.length + 1) 0).isSome = true ∧
    (readJSONInChunks content chunkSize pretty).length ≤ content.length := by
  refine ⟨fun position => readStep_newPos content chunkSize pretty position, ?_, ?_⟩
  · exact readLoopF_isSome content chunkSize pretty hcs (content.length + 1) 0 (by omega)
  · unfold readJSONInChunks
    cases heq : readLoopF content chunkSize pretty (content.length + 1) 0 with
    | none => simp
    | some l =>
      have := readLoopF_length content chunkSize pretty hcs (content.length + 1) 0 l heq
      simpa using (by omega : l.length ≤ content.length)

/-- Witness for claim4 at the three-character document with
chunkSize 5. -/
theorem claim4_witness :
    (0 + 5 ≤ (readStep ['a', 'b', 'c'] 5 false 0).2) ∧
    (readLoopF ['a', 'b', 'c'] 5 false 4 0).isSome = true ∧
    (readJSONInChunks ['a', 'b', 'c'] 5 false).length ≤ 3 := by
  have h := claim4 ['a', 'b', 'c'] 5 false (by decide)
  exact ⟨h.1 0, h.2.1, h.2.2⟩

/-- Counterexample to claim C3 as stated: on the bracketless
three-character document with chunkSize 5 the single yielded record
carries progress 167, which exceeds 100, and the final record's
progress is not 100. -/
theorem claim3_counterexample :
    readJSONInChunks ['a', 'b', 'c'] 5 false = [⟨['a', 'b', 'c'], 5, 167⟩] ∧
    ((readJSONInChunks ['a', 'b', 'c'] 5 false).map (fun r => r.progress) = [167]) ∧
    ¬ (∀ r ∈ readJSONInChunks ['a', 'b', 'c'] 5 false, r.progress ≤ 100) ∧
    ¬ (∀ r, (readJSONInChunks ['a', 'b', 'c'] 5 false).getLast? = some r →
        r.progress = 100) := by
  decide

/-- Claim C3, amended: every record except possibly the last carries a
progress value of at most 100; the final record's progress is at least
100, but exceeds 100 whenever the raw fallback advances the position
beyond the document length (the code rounds position / totalLength
without clamping the overshoot). -/
theorem claim3_amended (content : List Char) (chunkSize : Nat) (pretty : Bool)
    (hcs : 0 < chunkSize) (hne : content ≠ []) :
    (∀ r ∈ (readJSONInChunks content chunkSize pretty).dropLast, r.progress ≤ 100) ∧
    (∀ r, (readJSONInChunks content chunkSize pretty).getLast? = some r →
      100 ≤ r.progress) := by
  have hlen : 0 < content.length := List.length_pos.2 hne
  have hsome := readLoopF_isSome content chunkSize pretty hcs (content.length + 1) 0 (by omega)
  cases heq : readLoopF content chunkSize pretty (content.length + 1) 0 with
  | none => rw [heq] at hsome; simp at hsome
  | some l =>
    have hmain := readLoopF_progress content chunkSize pretty (content.length + 1) 0 l hlen heq
    unfold readJSONInChunks
    rw [heq]
    exact hmain

/-- Witness for claim3_amended at the single-bracket document with
chunkSize 1, whose lone record has progress exactly 100. -/
theorem claim3_amended_witness :
    100 ≤ (ChunkRecord.mk ['['] 1 100).progress :=
  (claim3_amended ['['] 1 false (by decide) (by decide)).2 ⟨['['], 1, 100⟩ rfl

/-- Claim C10: on the well-formed fourteen-character document whose
string elements contain bracket characters, with chunkSize 2, the
fourth emitted chunk is a validated widened slice starting at offset 5
(the value of findPreviousBracket scanning back from position 6),
which precedes the end of the extent already covered by the earlier
records, so chunks overlap and the concatenation of all emitted chunk
texts differs from the source document. -/
theorem claim10 :
    (readJSONInChunks
        ['[', '"', ']', '"', ',', '[', '"', 'a', '[', '"', ',', '2', ']', ']'] 2 false).map
        (fun r => (r.chunk, r.position, r.progress)) =
      [(jsSlice ['[', '"', ']', '"', ',', '[', '"', 'a', '[', '"', ',', '2', ']', ']'] 0 13, 2, 14),
       (jsSlice ['[', '"', ']', '"', ',', '[', '"', 'a', '[', '"', ',', '2', ']', ']'] 2 4, 4, 29),
       (jsSlice ['[', '"', ']', '"', ',', '[', '"', 'a', '[', '"', ',', '2', ']', ']'] 4 6, 6, 43),
       (jsSlice ['[', '"', ']', '"', ',', '[', '"', 'a', '[', '"', ',', '2', ']', ']'] 5 13, 5, 93),
       (jsSlice ['[', '"', ']', '"', ',', '[', '"', 'a', '[', '"', ',', '2', ']', ']'] 13 14, 15, 107)] ∧
    findPreviousBracket
      ['[', '"', ']', '"', ',', '[', '"', 'a', '[', '"', ',', '2', ']', ']'] 6 = some 5 ∧
    validateJSONSnippet
      (jsSlice ['[', '"', ']', '"', ',', '[', '"', 'a', '[', '"', ',', '2', ']', ']'] 5 13) = true ∧
    validateJSONSnippet
      ['[', '"', ']', '"', ',', '[', '"', 'a', '[', '"', ',', '2', ']', ']'] = true ∧
    ((readJSONInChunks
        ['[', '"', ']', '"', ',', '[', '"', 'a', '[', '"', ',', '2', ']', ']'] 2 false).map
        (fun r => r.chunk)).flatten ≠
      ['[', '"', ']', '"', ',', '[', '"', 'a', '[', '"', ',', '2', ']', ']'] := by
  decide

def WriteEvent.isLogProgress : WriteEvent → Bool
  | .logProgress _ => true
  | _ => false

theorem writeLoopF_of_ge (jsonString : List Char) (chunkSize : Nat)
    (fuel position : Nat) (hp : ¬ position < jsonString.length) :
    writeLoopF jsonString chunkSize fuel position = some [] := by
  cases fuel <;> simp [writeLoopF, hp]

theorem writeLoopF_isSome (jsonString : List Char) (chunkSize : Nat)
    (hcs : 0 < chunkSize) :
    ∀ fuel position, jsonString.length - position < fuel →
      (writeLoopF jsonString chunkSize fuel position).isSome = true := by
  intro fuel
  induction fuel with
  | zero => intro position h; omega
  | succ fuel ih =>
    intro position h
    rw [writeLoopF]
    by_cases hp : position < jsonString.length
    · simp only [hp, if_true]
      have hrec := ih (min (position + chunkSize) jsonString.length) (by omega)
      cases heq : writeLoopF jsonString chunkSize fuel
          (min (position + chunkSize) jsonString.length) with
      | none => rw [heq] at hrec; simp at hrec
      | some l => rfl
    · simp [hp]

theorem writtenChunks_cons_write (c : List Char) (p : Nat) (rest : List WriteEvent) :
    writtenChunks (.write c :: .logProgress p :: rest) = c :: writtenChunks rest := rfl

theorem writeLoopF_flatten (jsonString : List Char) (chunkSize : Nat) :
    ∀ fuel position l, writeLoopF jsonString chunkSize fuel position = some l →
      (writtenChunks l).flatten = jsonString.drop position := by
  intro fuel
  induction fuel with
  | zero =>
    intro position l h
    by_cases hp : position < jsonString.length
    · simp [writeLoopF, hp] at h
    · simp [writeLoopF, hp] at h
      subst h
      simp [writtenChunks]
      omega
  | succ fuel ih =>
    intro position l h
    by_cases hp : position < jsonString.length
    · rw [writeLoopF] at h
      simp only [hp, if_true] at h
      rcases Option.map_eq_some'.1 h with ⟨l', hrec, hl⟩
      rw [← hl, writtenChunks_cons_write]
      have ihrec := ih _ l' hrec
      rw [List.flatten_cons, ihrec]
      unfold jsSlice
      rw [List.drop_take]
      have hdd : jsonString.drop (min (position + chunkSize) jsonString.length) =
          (jsonString.drop position).drop (min (position + chunkSize) jsonString.length - position) := by
        rw [List.drop_drop]
        congr 1
        omega
      rw [hdd]
      exact List.take_append_drop _ _
    · rw [writeLoopF_of_ge jsonString chunkSize (fuel + 1) position hp] at h
      injection h with h'
      rw [← h']
      simp [writtenChunks]
      omega

/-- Counterexample to claim C6 as stated: for the array holding the
strings with bracket characters, writing is lossless (the written
slices concatenate to the full serialization), but reading the written
text back with chunkSize 2 yields overlapping chunks whose
concatenation is not even parseable, so no value deep-equal to the
original is recovered. -/
theorem claim6_counterexample :
    jsonStringify (.arr [.str [']'], .arr [.str ['a', '['], .num 2]]) =
      ['[', '"', ']', '"', ',', '[', '"', 'a', '[', '"', ',', '2', ']', ']'] ∧
    (writtenChunks
        (writeJSONInChunks (.arr [.str [']'], .arr [.str ['a', '['], .num 2]])
          false 2 false)).flatten =
      jsonStringify (.arr [.str [']'], .arr [.str ['a', '['], .num 2]]) ∧
    (jsonParse (((readJSONInChunks
        ['[', '"', ']', '"', ',', '[', '"', 'a', '[', '"', ',', '2', ']', ']'] 2 false).map
        (fun r => r.chunk)).flatten)).isSome = false := by
  decide

/-- Claim C6, amended: the write side is lossless for every value and
every chunkSize > 0 (the written chunkSize-character slices
concatenate to the exact serialization the writer computed), but the
read side does not in general reassemble the file text by
concatenation, so the claimed full round-trip fails; only the write
half of the claim holds universally. -/
theorem claim6_amended (data : JValue) (append : Bool) (chunkSize : Nat) (pretty : Bool)
    (hcs : 0 < chunkSize) :
    (writtenChunks (writeJSONInChunks data append chunkSize pretty)).flatten =
      writerString data pretty := by
  unfold writeJSONInChunks
  simp only []
  have hsome := writeLoopF_isSome (writerString data pretty) chunkSize hcs
    ((writerString data pretty).length + 1) 0 (by omega)
  cases heq : writeLoopF (writerString data pretty) chunkSize
      ((writerString data pretty).length + 1) 0 with
  | none => rw [heq] at hsome; simp at hsome
  | some l =>
    have := writeLoopF_flatten (writerString data pretty) chunkSize
      ((writerString data pretty).length + 1) 0 l heq
    simpa using this

/-- Witness for claim6_amended at a small value with the default
chunkSize. -/
theorem claim6_amended_witness :
    (writtenChunks (writeJSONInChunks (.num 1) false 500 false)).flatten =
      writerString (.num 1) false :=
  claim6_amended (.num 1) false 500 false (by decide)

/-- Counterexample to claim C8 as stated: writing a two-element array
with chunkSize 3 produces two writes, each followed by a console
progress log, and no progress-callback invocation at all; the writer
destructures only append, chunkSize and pretty from its options. -/
theorem claim8_counterexample :
    writeJSONInChunks (.arr [.num 1, .num 2]) false 3 false =
      [.write ['[', '1', ','], .logProgress 60, .write ['2', ']'], .logProgress 100] ∧
    (writeJSONInChunks (.arr [.num 1, .num 2]) false 3 false).countP
      (fun e => e.isCallbackInvocation) = 0 ∧
    (writeJSONInChunks (.arr [.num 1, .num 2]) false 3 false).countP
      (fun e => e.isWrite) = 2 := by
  decide

theorem counts_cons_write_log (c : List Char) (q : Nat) (rest : List WriteEvent) :
    (WriteEvent.write c :: WriteEvent.logProgress q :: rest).countP
        (fun e => e.isCallbackInvocation) =
      rest.countP (fun e => e.isCallbackInvocation) ∧
    (WriteEvent.write c :: WriteEvent.logProgress q :: rest).countP (fun e => e.isWrite) =
      rest.countP (fun e => e.isWrite) + 1 ∧
    (WriteEvent.write c :: WriteEvent.logProgress q :: rest).countP
        (fun e => e.isLogProgress) =
      rest.countP (fun e => e.isLogProgress) + 1 := by
  refine ⟨?_, ?_, ?_⟩ <;>
    simp [List.countP_cons, WriteEvent.isCallbackInvocation, WriteEvent.isWrite,
      WriteEvent.isLogProgress]

theorem writeLoopF_counts (jsonString : List Char) (chunkSize : Nat) :
    ∀ fuel position l, writeLoopF jsonString chunkSize fuel position = some l →
      l.countP (fun e => e.isCallbackInvocation) = 0 ∧
      l.countP (fun e => e.isWrite) = l.countP (fun e => e.isLogProgress) := by
  intro fuel
  induction fuel with
  | zero =>
    intro position l h
    by_cases hp : position < jsonString.length
    · simp [writeLoopF, hp] at h
    · simp [writeLoopF, hp] at h
      subst h
      exact ⟨rfl, rfl⟩
  | succ fuel ih =>
    intro position l h
    by_cases hp : position < jsonString.length
    · rw [writeLoopF] at h
      simp only [hp, if_true] at h
      rcases Option.map_eq_some'.1 h with ⟨l', hrec, hl⟩
      obtain ⟨ih1, ih2⟩ := ih _ l' hrec
      obtain ⟨e1, e2, e3⟩ := counts_cons_write_log
        (jsSlice jsonString position (min (position + chunkSize) jsonString.length))
        (mathRound (100 * (min (position + chunkSize) jsonString.length)) jsonString.length) l'
      rw [← hl]
      constructor
      · rw [e1, ih1]
      · rw [e2, e3, ih2]
    · rw [writeLoopF_of_ge jsonString chunkSize (fuel + 1) position hp] at h
      injection h with h'
      rw [← h']
      exact ⟨rfl, rfl⟩

/-- Claim C8, amended: writeJSONInChunks never invokes a progress
callback (its options carry none); instead each chunk write is
followed by one console progress log, so writes and progress logs are
equinumerous in every trace.  The progressCallback option exists only
on the reader. -/
theorem claim8_amended (data : JValue) (append : Bool) (chunkSize : Nat) (pretty : Bool) :
    (writeJSONInChunks data append chunkSize pretty).countP
      (fun e => e.isCallbackInvocation) = 0 ∧
    (writeJSONInChunks data append chunkSize pretty).countP (fun e => e.isWrite) =
      (writeJSONInChunks data append chunkSize pretty).countP (fun e => e.isLogProgress) := by
  unfold writeJSONInChunks
  simp only []
  cases heq : writeLoopF (writerString data pretty) chunkSize
      ((writerString data pretty).length + 1) 0 with
  | none => exact ⟨rfl, rfl⟩
  | some l =>
    have := writeLoopF_counts (writerString data pretty) chunkSize
      ((writerString data pretty).length + 1) 0 l heq
    simpa using this

theorem foldl_total_mono {α : Type} (g : AnalyzerStats → α → AnalyzerStats)
    (hg : ∀ st a, st.total ≤ (g st a).total) :
    ∀ (l : List α) (st : AnalyzerStats), st.total ≤ (l.foldl g st).total := by
  intro l
  induction l with
  | nil => intro st; exact Nat.le_refl _
  | cons a l ih => intro st; exact Nat.le_trans (hg st a) (ih (g st a))

theorem analyzeStructureF_total_lt :
    ∀ fuel (stats : AnalyzerStats) (v : JValue) (path : List Char),
      stats.total < (analyzeStructureF fuel stats v path).total := by
  intro fuel
  induction fuel with
  | zero =>
    intro stats v path
    cases v <;> simp [analyzeStructureF, AnalyzerStats.total]
  | succ fuel ih =>
    intro stats v path
    cases v with
    | null => simp [analyzeStructureF, AnalyzerStats.total]
    | bool b => simp [analyzeStructureF, AnalyzerStats.total]
    | num n => simp [analyzeStructureF, AnalyzerStats.total]
    | str s => simp [analyzeStructureF, AnalyzerStats.total]
    | arr items =>
      simp only [analyzeStructureF]
      have hg : ∀ (st : AnalyzerStats) (a : Nat × JValue),
          st.total ≤ (analyzeStructureF fuel st a.2
            (path ++ '[' :: (toString a.1).toList ++ [']'])).total :=
        fun st a => Nat.le_of_lt (ih st a.2 _)
      exact Nat.lt_of_lt_of_le (by simp [AnalyzerStats.total])
        (foldl_total_mono _ hg items.enum _)
    | obj fields =>
      simp only [analyzeStructureF]
      have hg : ∀ (st : AnalyzerStats) (a : List Char × JValue),
          st.total ≤ (analyzeStructureF fuel st a.2 (path ++ '.' :: a.1)).total :=
        fun st a => Nat.le_of_lt (ih st a.2 _)
      exact Nat.lt_of_lt_of_le (by simp [AnalyzerStats.total])
        (foldl_total_mono _ hg fields _)

/-- Counterexample to claim C7 as stated: this.stats persists on the
analyzer instance, so a second analysis of the same document on the
same instance starts from the first run's counters; analysing a null
document twice leaves the null counter at 2, not at the first run's
value 1. -/
theorem claim7_counterexample :
    analyzeStructure (analyzeStructure initialAnalyzerStats .null) .null ≠
      analyzeStructure initialAnalyzerStats .null ∧
    (analyzeStructure initialAnalyzerStats .null).nulls = 1 ∧
    (analyzeStructure (analyzeStructure initialAnalyzerStats .null) .null).nulls = 2 := by
  decide

/-- Claim C7, amended: the analyzer's shared stats object is mutated
by every run and never reset by analyzeJSON or analyzeStructure, so a
second analysis call on the same instance never reproduces the first
run's stats (every traversal strictly increases the counter sum);
byte-identical reports require a fresh analyzer instance, or the
explicit reset that analyzeMultipleFiles performs between files. -/
theorem claim7_amended (stats : AnalyzerStats) (v : JValue) (path : List Char) :
    analyzeStructure (analyzeStructure stats v path) v path ≠
      analyzeStructure stats v path := by
  intro heq
  have h1 : (analyzeStructure stats v path).total <
      (analyzeStructure (analyzeStructure stats v path) v path).total :=
    analyzeStructureF_total_lt stackFuel _ v path
  rw [heq] at h1
  exact Nat.lt_irrefl _ h1

theorem foldl_balanced {α : Type} (g : ParserResults → α → ParserResults)
    (hg : ∀ r a, r.typeTotal = r.totalElements → (g r a).typeTotal = (g r a).totalElements) :
    ∀ (l : List α) (r : ParserResults), r.typeTotal = r.totalElements →
      (l.foldl g r).typeTotal = (l.foldl g r).totalElements := by
  intro l
  induction l with
  | nil => intro r h; exact h
  | cons a l ih => intro r h; exact ih (g r a) (hg r a h)

theorem bumpMaxDepth_typeTotal (r : ParserResults) (depth : Nat) :
    (bumpMaxDepth r depth).typeTotal = r.typeTotal := by
  unfold bumpMaxDepth
  split <;> rfl

theorem bumpMaxDepth_totalElements (r : ParserResults) (depth : Nat) :
    (bumpMaxDepth r depth).totalElements = r.totalElements := by
  unfold bumpMaxDepth
  split <;> rfl

theorem analyzeValueF_balanced :
    ∀ fuel (r : ParserResults) (key : List Char) (v : JValue) (depth : Nat),
      r.typeTotal = r.totalElements →
      (analyzeValueF fuel r key v depth).typeTotal =
        (analyzeValueF fuel r key v depth).totalElements := by
  intro fuel
  induction fuel with
  | zero =>
    intro r key v depth h
    have hb := bumpMaxDepth_typeTotal r depth
    have hb2 := bumpMaxDepth_totalElements r depth
    cases v <;> simp [analyzeValueF, ParserResults.typeTotal] at * <;> omega
  | succ fuel ih =>
    intro r key v depth h
    have hb := bumpMaxDepth_typeTotal r depth
    have hb2 := bumpMaxDepth_totalElements r depth
    cases v with
    | null => simp [analyzeValueF, ParserResults.typeTotal] at *; omega
    | bool b => simp [analyzeValueF, ParserResults.typeTotal] at *; omega
    | num n => simp [analyzeValueF, ParserResults.typeTotal] at *; omega
    | str s => simp [analyzeValueF, ParserResults.typeTotal] at *; omega
    | arr items =>
      simp only [analyzeValueF]
      have hupd : ({ bumpMaxDepth r depth with
          arrays := (bumpMaxDepth r depth).arrays + 1,
          totalElements := (bumpMaxDepth r depth).totalElements + 1 } :
            ParserResults).typeTotal =
          ({ bumpMaxDepth r depth with
            arrays := (bumpMaxDepth r depth).arrays + 1,
            totalElements := (bumpMaxDepth r depth).totalElements + 1 } :
              ParserResults).totalElements := by
        simp [ParserResults.typeTotal] at *
        omega
      by_cases hd : depth < 5
      · rw [if_pos hd]
        have hg : ∀ (r' : ParserResults) (a : Nat × JValue),
            r'.typeTotal = r'.totalElements →
            (analyzeValueF fuel r' (key ++ '[' :: (toString a.1).toList ++ [']']) a.2
              (depth + 1)).typeTotal =
            (analyzeValueF fuel r' (key ++ '[' :: (toString a.1).toList ++ [']']) a.2
              (depth + 1)).totalElements :=
          fun r' a h' => ih r' _ a.2 _ h'
        exact foldl_balanced _ hg items.enum _ hupd
      · rw [if_neg hd]
        exact hupd
    | obj fields =>
      simp only [analyzeValueF]
      have hupd : ({ bumpMaxDepth r depth with
          objects := (bumpMaxDepth r depth).objects + 1,
          totalElements := (bumpMaxDepth r depth).totalElements + 1 } :
            ParserResults).typeTotal =
          ({ bumpMaxDepth r depth with
            objects := (bumpMaxDepth r depth).objects + 1,
            totalElements := (bumpMaxDepth r depth).totalElements + 1 } :
              ParserResults).totalElements := by
        simp [ParserResults.typeTotal] at *
        omega
      by_cases hd : depth < 5
      · rw [if_pos hd]
        have hg : ∀ (r' : ParserResults) (a : List Char × JValue),
            r'.typeTotal = r'.totalElements →
            (analyzeValueF fuel r' (key ++ '.' :: a.1) a.2 (depth + 1)).typeTotal =
            (analyzeValueF fuel r' (key ++ '.' :: a.1) a.2 (depth + 1)).totalElements :=
          fun r' a h' => ih r' _ a.2 _ h'
        exact foldl_balanced _ hg fields _ hupd
      · rw [if_neg hd]
        exact hupd

/-- Claim C9: whenever the six per-type counters and totalElements
agree before a traversal (as they do in the freshly constructed
results), they agree after analyzeValue traverses any value at any
depth: every branch increments exactly one type counter together with
totalElements. -/
theorem claim9 (results : ParserResults) (key : List Char) (v : JValue) (depth : Nat)
    (h : results.typeTotal = results.totalElements) :
    (analyzeValue results key v depth).typeTotal =
      (analyzeValue results key v depth).totalElements :=
  analyzeValueF_balanced stackFuel results key v depth h

/-- Witness for claim9 on a mixed array analysed from the fresh
constructor state. -/
theorem claim9_witness :
    (analyzeValue initialParserResults ['r'] (.arr [.num 1, .str ['x'], .null]) 0).typeTotal =
      (analyzeValue initialParserResults ['r'] (.arr [.num 1, .str ['x'], .null]) 0).totalElements :=
  claim9 initialParserResults ['r'] (.arr [.num 1, .str ['x'], .null]) 0 rfl
